import Mathlib

set_option autoImplicit false

/-
Verification of the wagtail-algolia-search backend
(src/wagtail_algolia_search/backend.py) against its specification.

The development is a shallow embedding of the backend module.  Python
strings are Lean `String`s; where the code splits or scans strings we
work on `String.data` (the character list) so that everything reduces
in the kernel.  Python dicts are association lists updated with
`dictSet` (which preserves the position of an existing binding, as
CPython dicts do).  Python exceptions are modelled with `Except`;
`ValueError` and `LookupError` are distinguished because the backend
catches only the former.  The host framework (Django / Wagtail) is an
external collaborator: its accessors (`get_value`, `get_definition_model`,
`apps.get_model`, queryset filtering and ordering, the memoising
`BaseSearchResults` wrappers) are modelled from their documented
behaviour at the granularity the backend relies on.
-/

/-! ## Character-list utilities (Python `str.split(sep)` for one-char separators) -/

/-- Python `s.split(sep)` restricted to a single-character separator, acting on
the character list of the string.  The empty string gives `[[]]`, exactly as
`"".split(sep)` gives `[""]` in Python. -/
def splitOnChar (c : Char) : List Char → List (List Char)
  | [] => [[]]
  | x :: rest =>
    if x = c then [] :: splitOnChar c rest
    else
      match splitOnChar c rest with
      | [] => [[x]]
      | g :: gs => (x :: g) :: gs

/-- Detects two adjacent underscores.  Sub-object keys produced by
`get_field_key` always contain `__`, while the four root-level bookkeeping
keys never do, so the field-writing loop cannot clobber a root key. -/
def hasDoubleUnderscore : List Char → Bool
  | [] => false
  | [_] => false
  | a :: b :: rest => (a = '_' && b = '_') || hasDoubleUnderscore (b :: rest)

/-! ## Python values

`PyVal` models the Python values the backend manipulates: `None`, strings,
booleans, integers, model instances (a pk plus an attribute dictionary),
related managers (`Manager`/`QuerySet`), lists, callables and plain dicts.
Primary keys are carried as strings (their rendering inside an `objectID`). -/

inductive PyVal where
  | vnone
  | vstr (s : String)
  | vint (n : Int)
  | vbool (b : Bool)
  | vmodel (pk : String) (attrs : List (String × PyVal))
  | vmanager (objs : List PyVal)
  | vlist (xs : List PyVal)
  | vcallable (res : PyVal)
  | vdict (kvs : List (String × PyVal))

/-- Wagtail search-field descriptors: `SearchField`, `AutocompleteField`,
`FilterField` and `RelatedFields`.  Each descriptor carries the registry
index of the type on which the underlying attribute is defined — the value
`get_definition_model` resolves to (spec §9 replaces the runtime MRO walk
with exactly this explicit declaring-type attribute). -/
inductive SField where
  | searchF (field_name : String) (declared : Nat)
  | autocompleteF (field_name : String) (declared : Nat)
  | filterF (field_name : String) (declared : Nat)
  | relatedF (field_name : String) (declared : Nat) (fields : List SField)

def SField.fieldName : SField → String
  | .searchF n _ => n
  | .autocompleteF n _ => n
  | .filterF n _ => n
  | .relatedF n _ _ => n

def SField.declaredIn : SField → Nat
  | .searchF _ d => d
  | .autocompleteF _ d => d
  | .filterF _ d => d
  | .relatedF _ d _ => d

/-- Wagtail `BaseField.get_definition_model`, resolved to the explicit
declaring-type attribute of the descriptor. -/
def get_definition_model (f : SField) : Nat := f.declaredIn

def SField.isFilter : SField → Bool
  | .filterF _ _ => true
  | _ => false

/-! ## Indexed types and object instances -/

/-- A registered indexed type: Django model metadata (`app_label`,
`object_name`), its method resolution order (`mro`, the type itself first,
given as registry indices) and the search-field descriptors whose underlying
attribute is defined on this very type. -/
structure MType where
  appLabel : String
  objectName : String
  mro : List Nat
  ownFields : List SField

def defMType : MType := ⟨"", "", [], []⟩

/-- The registry of indexed models (`get_indexed_models()` order). -/
abbrev Registry := List MType

/-- Scalar database column values (what Django `values(field)` yields). -/
inductive SVal where
  | snull
  | sstr (s : String)
  | sint (n : Int)
  | sbool (b : Bool)
  deriving DecidableEq

/-- An object instance: its type (registry index), primary key, optional
locale language code, the Python attribute view used by search-field
extraction, and the scalar database-column view used by `values()`
aggregation. -/
structure MObj where
  typeId : Nat
  pk : String
  locale : Option String
  attrs : List (String × PyVal)
  cols : List (String × SVal)

/-! ## Python dict operations -/

/-- Python dict item assignment on an association list: an existing binding
is updated in place (its position is preserved, as in CPython), a new key is
appended at the end. -/
def dictSet (d : List (String × PyVal)) (k : String) (v : PyVal) :
    List (String × PyVal) :=
  match d with
  | [] => [(k, v)]
  | (k', v') :: rest => if k' = k then (k, v) :: rest else (k', v') :: dictSet rest k v

def dictGet (d : List (String × PyVal)) (k : String) : Option PyVal :=
  d.lookup k

/-- `doc[key][field] = v` on a `defaultdict(dict)`: a missing `key` first
gets a fresh empty dict appended, then the inner dict is updated in place.
If the value sitting at `key` is not a dict, Python would raise `TypeError`;
that branch is unreachable because sub-object keys always contain `__` and
therefore never collide with the four root bookkeeping keys. -/
def dictSetNested (d : List (String × PyVal)) (key fieldName : String)
    (v : PyVal) : List (String × PyVal) :=
  match dictGet d key with
  | some (.vdict kvs) => dictSet d key (.vdict (dictSet kvs fieldName v))
  | none => d ++ [(key, .vdict [(fieldName, v)])]
  | some _ => d

/-! ## Field classifier (`ObjectIndexer.prepare_field`) -/

/-- Wagtail `BaseField.get_value`: attribute extraction from an object, with
the `getattr(obj, field_name, None)` fallback semantics (a missing attribute
yields `None`). -/
def get_value (obj : PyVal) (fieldName : String) : PyVal :=
  match obj with
  | .vmodel _ attrs => (attrs.lookup fieldName).getD .vnone
  | .vdict kvs => (kvs.lookup fieldName).getD .vnone
  | _ => .vnone

/-- `value.pk` for elements of a list: model instances are mapped to their
primary key, anything else is passed through unchanged. -/
def itemPk (v : PyVal) : PyVal :=
  match v with
  | .vmodel pk _ => .vstr pk
  | x => x

/-- `ObjectIndexer.prepare_field` (backend.py lines 75-172), translated
branch by branch.  The generator is materialised as the list of yielded
`(descriptor, value)` pairs.  Note the `RelatedFields` null branch: the
source yields `(field, None)` and then — there is no `return` — falls
through to the single-valued `else` branch and yields a second pair built
from the null sub-object. -/
def prepare_field (obj : PyVal) (field : SField) : List (SField × PyVal) :=
  let value := get_value obj field.fieldName
  match field with
  | .searchF _ _ => [(field, value)]
  | .autocompleteF _ _ => [(field, value)]
  | .filterF _ _ =>
    let value2 :=
      match value with
      | .vmanager objs => .vlist (objs.map itemPk)
      | .vmodel pk _ => .vstr pk
      | .vlist xs => .vlist (xs.map itemPk)
      | v => v
    [(field, value2)]
  | .relatedF n d subfields =>
    let firstPair : List (SField × PyVal) :=
      match value with
      | .vnone => [(.relatedF n d subfields, .vnone)]
      | _ => []
    let mkSub : PyVal → List (String × PyVal) := fun so =>
      (subfields.attach.flatMap fun sf =>
          (prepare_field so sf.val).map fun p => (p.1.fieldName, p.2)).foldl
        (fun acc kv => dictSet acc kv.1 kv.2) []
    firstPair ++
      match value with
      | .vmanager objs =>
        [(.relatedF n d subfields, .vlist (objs.map fun so => .vdict (mkSub so)))]
      | v =>
        let so := match v with | .vcallable r => r | w => w
        [(.relatedF n d subfields, .vdict (mkSub so))]
termination_by sizeOf field
decreasing_by
  simp_wf
  have := List.sizeOf_lt_of_mem sf.property
  omega

/-! ## Document builder (`ObjectIndexer.get_document`) -/

/-- `ObjectIndexer.get_object_id`:
`f"{obj._meta.app_label}.{obj._meta.object_name}:{obj.pk}"`. -/
def get_object_id (ty : MType) (pk : String) : String :=
  ty.appLabel ++ "." ++ ty.objectName ++ ":" ++ pk

def typeOf (registry : Registry) (obj : MObj) : MType :=
  registry.getD obj.typeId defMType

def get_object_id_of (registry : Registry) (obj : MObj) : String :=
  get_object_id (typeOf registry obj) obj.pk

/-- `ObjectIndexer.get_field_key`:
`f"{field_defined_in._meta.app_label}__{field_defined_in._meta.object_name}"`. -/
def get_field_key (registry : Registry) (f : SField) : String :=
  let ty := registry.getD (get_definition_model f) defMType
  ty.appLabel ++ "__" ++ ty.objectName

/-- Wagtail `get_search_fields`: the type's full descriptor list, inherited
descriptors first.  The class attribute is built as
`search_fields = Parent.search_fields + [...]`, so walking the MRO from the
root down and concatenating each type's own descriptors reproduces it. -/
def get_search_fields (registry : Registry) (tyIdx : Nat) : List SField :=
  ((registry.getD tyIdx defMType).mro.reverse).flatMap fun a =>
    (registry.getD a defMType).ownFields

/-- Wagtail `get_filterable_search_fields`: the `FilterField` entries of the
full (own + inherited) descriptor list. -/
def get_filterable_search_fields (registry : Registry) (tyIdx : Nat) :
    List SField :=
  (get_search_fields registry tyIdx).filter (fun f => f.isFilter)

/-- The object instance as the Python value handed to `prepare_field`. -/
def objAsPyVal (obj : MObj) : PyVal := .vmodel obj.pk obj.attrs

/-- The nested write operations performed by the field loop of
`get_document`: for every descriptor of the instance's type, for every pair
yielded by `prepare_field`, one assignment
`doc[get_field_key(model, current_field)][current_field.field_name] = value`. -/
def fieldWrites (registry : Registry) (obj : MObj) :
    List (String × String × PyVal) :=
  (get_search_fields registry obj.typeId).flatMap fun field =>
    (prepare_field (objAsPyVal obj) field).map fun p =>
      (get_field_key registry p.1, p.1.fieldName, p.2)

/-- The four root-level bookkeeping assignments of `get_document`
(backend.py lines 54-65), in source order. -/
def rootDoc (registry : Registry) (obj : MObj) : List (String × PyVal) :=
  dictSet
    (dictSet
      (dictSet
        (dictSet [] "objectID" (.vstr (get_object_id_of registry obj)))
        "wagtail_managed" (.vbool true))
      "locale" (match obj.locale with | some lc => .vstr lc | none => .vnone))
    "model"
    (.vstr ((typeOf registry obj).appLabel ++ "." ++ (typeOf registry obj).objectName))

/-- `ObjectIndexer.get_document` (backend.py lines 49-73): the four root
bookkeeping assignments, then the field loop. -/
def get_document (registry : Registry) (obj : MObj) : List (String × PyVal) :=
  (fieldWrites registry obj).foldl
    (fun d w => dictSetNested d w.1 w.2.1 w.2.2) (rootDoc registry obj)

/-- `AlgoliaIndex.delete_item` computes the identifier it passes to
`index.delete_object` via the same `get_object_id`. -/
def delete_item_object_id (registry : Registry) (obj : MObj) : String :=
  get_object_id_of registry obj

/-! ## Query compiler (`AlgoliaSearchQueryCompiler.get_query`) -/

structure AlgoliaQueryParams where
  filters : String
  attributesToRetrieve : List String
  attributesToHighlight : List String
  deriving DecidableEq

/-- The query compiler state: the host queryset the search was invoked on
and the query string.  (`_get_filters_from_where_node` is `pass`: the host
queryset takes no part in what is sent to Algolia.) -/
structure AlgoliaSearchQueryCompiler where
  queryset : List MObj
  query_string : String

/-- `AlgoliaSearchQueryCompiler.get_query` (backend.py lines 180-188). -/
def get_query (c : AlgoliaSearchQueryCompiler) : String × AlgoliaQueryParams :=
  (c.query_string,
   { filters := "wagtail_managed:true"
     attributesToRetrieve := ["objectID"]
     attributesToHighlight := [] })

/-! ## Result reconciliation (`AlgoliaSearchResults._do_search`) -/

/-- The Python exceptions the reconciliation loop can meet: `ValueError`
(tuple unpacking of `split(":")`, or a model name that is not a single
dot-separated pair) and `LookupError` (a dotted name whose app or model is
not registered).  The loop catches only `ValueError`. -/
inductive PyError where
  | valueError
  | lookupError
  deriving DecidableEq

/-- Django `apps.get_model(name)` for a single string argument: the name is
split on `"."` and must give exactly two parts (otherwise `ValueError`);
an unknown app label or model name raises `LookupError`.  (Django matches
model names case-insensitively; the documents built by this backend render
`object_name` verbatim, so case differences never arise here.) -/
def apps_get_model (registry : Registry) (nameChars : List Char) :
    Except PyError Nat :=
  match splitOnChar '.' nameChars with
  | [appL, modelN] =>
    match registry.findIdx?
        (fun m => m.appLabel.data == appL && m.objectName.data == modelN) with
    | some i => .ok i
    | none => .error .lookupError
  | _ => .error .valueError

/-- Python `issubclass(A, B)`: `B` occurs in `A.__mro__`. -/
def pyIssubclass (registry : Registry) (a b : Nat) : Bool :=
  (registry.getD a defMType).mro.contains b

/-- The hit loop of `_do_search` (backend.py lines 220-229): split each
`objectID` on `":"`, resolve the model name, keep the pk when the resolved
model is a subclass of the queryset's model.  `ValueError` is caught and
the hit skipped; any other exception propagates. -/
def collectPks (registry : Registry) (target : Nat) :
    List String → Except PyError (List (List Char))
  | [] => .ok []
  | hit :: rest =>
    match splitOnChar ':' hit.data with
    | [nameChars, pkChars] =>
      match apps_get_model registry nameChars with
      | .ok ty =>
        match collectPks registry target rest with
        | .ok pks =>
          .ok (if pyIssubclass registry ty target then pkChars :: pks else pks)
        | .error e => .error e
      | .error .valueError => collectPks registry target rest
      | .error e => .error e
    | _ => collectPks registry target rest

/-- The key assigned to a row by
`Case(*[When(pk=pk, then=pos) for pos, pk in enumerate(pks)])`:
the position of the first `When` clause matching the row's pk, `none`
(SQL `NULL`) when no clause matches. -/
def caseFirstMatch (pks : List (List Char)) (pk : List Char) : Option Nat :=
  match pks with
  | [] => none
  | p :: rest => if pk = p then some 0 else (caseFirstMatch rest pk).map (· + 1)

/-- `order_by(preserved)`: ascending stable order by the `Case` key,
expressed as bucket concatenation (all rows with key `0`, then key `1`, …,
in table order inside a bucket); rows whose key is `NULL` sort last. -/
def order_by_case (pks : List (List Char)) (rows : List MObj) : List MObj :=
  ((List.range pks.length).flatMap fun i =>
      rows.filter fun o => caseFirstMatch pks o.pk.data == some i)
    ++ rows.filter (fun o => caseFirstMatch pks o.pk.data == none)

/-- `queryset.filter(pk__in=pks).order_by(preserved)` applied to the
queryset's rows. -/
def requeryHost (qs : List MObj) (pks : List (List Char)) : List MObj :=
  order_by_case pks (qs.filter fun o => pks.contains o.pk.data)

/-- The reconciled result list computed by `_do_search` (backend.py lines
208-238) for a search that returned `hits`, run against the host queryset
`qs` whose element type is `target`. -/
def do_search_result (registry : Registry) (target : Nat) (qs : List MObj)
    (hits : List String) : Except PyError (List MObj) :=
  match collectPks registry target hits with
  | .ok pks => .ok (requeryHost qs pks)
  | .error e => .error e

/-! ## Index settings synchronizer (`AlgoliaIndex.update_settings`)

Python list objects are mutable and shared by reference; `dict.copy()` is
shallow.  To state what the caller observes after `update_settings`, list
objects live in an explicit heap and the settings dict holds a reference. -/

/-- A heap of Python list-of-string objects, addressed by allocation index. -/
structure Heap where
  lists : List (List String)

def Heap.get (h : Heap) (r : Nat) : List String := h.lists.getD r []

def Heap.set (h : Heap) (r : Nat) (v : List String) : Heap := ⟨h.lists.set r v⟩

def Heap.alloc (h : Heap) (v : List String) : Heap × Nat :=
  (⟨h.lists ++ [v]⟩, h.lists.length)

/-- The `INDEX_SETTINGS` dict: an optional reference to the
`attributesForFaceting` list plus the remaining (scalar) entries. -/
structure IndexSettings where
  aff : Option Nat
  rest : List (String × String)

/-- The three fixed entries appended by `update_settings`. -/
def fixedFacetAttrs : List String :=
  ["filterOnly(wagtail_managed)", "locale", "model"]

/-- The `attributesForFaceting` entries contributed by one registered model:
its filterable search fields (own and inherited) restricted to those whose
definition model is the model itself, rendered as
`f"filterOnly({app_label}__{object_name}.{field_name})"`. -/
def modelFacetEntries (registry : Registry) (i : Nat) : List String :=
  ((get_filterable_search_fields registry i).filter
      (fun f => get_definition_model f == i)).map fun f =>
    let ty := registry.getD i defMType
    "filterOnly(" ++ ty.appLabel ++ "__" ++ ty.objectName ++ "." ++ f.fieldName ++ ")"

/-- The entries appended by the `for model in get_indexed_models()` loop,
in registration order. -/
def allModelFacetEntries (registry : Registry) : List String :=
  (List.range registry.length).flatMap (modelFacetEntries registry)

/-- `AlgoliaIndex.update_settings` (backend.py lines 285-317).
`index_settings = self.index_settings.copy()` is a shallow copy, so the
copy initially shares the `attributesForFaceting` list object with the
caller's base configuration.  When the key is missing or its list is empty
(falsy), `index_settings["attributesForFaceting"] = []` rebinds the copy to
a freshly allocated list.  `+=` and the per-field `.append` calls then
extend that list object in place.  Returns the dict passed to
`set_settings`, the heap after the call, and the resolved
`attributesForFaceting` payload that is sent. -/
def update_settings (registry : Registry) (base : IndexSettings) (h : Heap) :
    IndexSettings × Heap × List String :=
  let step1 : IndexSettings × Heap :=
    match base.aff with
    | none =>
      let (h2, r) := h.alloc []
      ({ base with aff := some r }, h2)
    | some r =>
      if h.get r = [] then
        let (h2, r2) := h.alloc []
        ({ base with aff := some r2 }, h2)
      else ({ base with aff := some r }, h)
  let copy := step1.1
  let h2 := step1.2
  let r := copy.aff.getD 0
  let h3 := h2.set r (h2.get r ++ fixedFacetAttrs ++ allModelFacetEntries registry)
  (copy, h3, h3.get r)

/-! ## Facet computation (`AlgoliaSearchResults.facet`) -/

/-- The database column of a reconciled row that `values(field_name)`
reads (a missing column reads as SQL `NULL`). -/
def colOf (o : MObj) (fieldName : String) : SVal :=
  (o.cols.lookup fieldName).getD .snull

/-- Stable descending order by a `Nat` key, expressed as bucket
concatenation: all elements with key `bound`, then `bound - 1`, …, then `0`,
keeping the input order inside a bucket.  This is the `order_by("-count")`
of the facet query; every key is at most `bound` there. -/
def bucketSortDesc {α : Type} (bound : Nat) (key : α → Nat) (xs : List α) :
    List α :=
  ((List.range (bound + 1)).reverse).flatMap fun k =>
    xs.filter fun x => key x == k

/-- `query.values(field_name).annotate(count=Count("pk")).order_by("-count")`:
group the reconciled rows by the requested column, count rows per distinct
value, order the groups by descending count. -/
def valuesAnnotateCount (rows : List MObj) (fieldName : String) :
    List (SVal × Nat) :=
  let vals := rows.map fun o => colOf o fieldName
  let pairs := vals.dedup.map fun v => (v, vals.count v)
  bucketSortDesc rows.length (fun p => p.2) pairs

/-- Wagtail `BaseSearchQueryCompiler._get_filterable_field`: a dict built
over the model's filterable search fields keyed by attribute name (a later
duplicate key overwrites an earlier one, hence the reversed search), then
looked up at the requested name. -/
def get_filterable_field (registry : Registry) (tyIdx : Nat)
    (fieldName : String) : Option SField :=
  ((get_filterable_search_fields registry tyIdx).reverse).find? fun f =>
    f.fieldName == fieldName

/-- The errors a search-results operation can surface: a propagated Python
exception from reconciliation, or Wagtail's `FilterFieldError` carrying its
message and the offending field name. -/
inductive SearchError where
  | py (e : PyError)
  | filterFieldError (message : String) (fieldName : String)

/-- The error message built by `facet` (backend.py lines 251-260); the
source quotes the field name with single quotes inside the message. -/
def facetErrorMessage (fieldName modelName : String) : String :=
  "Cannot facet search results with field \"" ++ fieldName ++
    "\". Please add index.FilterField(" ++ fieldName ++ ") to " ++
    modelName ++ ".search_fields."

/-- `AlgoliaSearchResults.facet` (backend.py lines 247-269): raise
`FilterFieldError` when the field is not filterable on the queryset's
model, otherwise rerun the reconciliation and aggregate. -/
def facet (registry : Registry) (target : Nat) (qs : List MObj)
    (hits : List String) (fieldName : String) :
    Except SearchError (List (SVal × Nat)) :=
  match get_filterable_field registry target fieldName with
  | none =>
    .error (.filterFieldError
      (facetErrorMessage fieldName (registry.getD target defMType).objectName)
      fieldName)
  | some _ =>
    match do_search_result registry target qs hits with
    | .error e => .error (.py e)
    | .ok rows => .ok (valuesAnnotateCount rows fieldName)

/-! ## The per-result-object memoisation (`AlgoliaSearchResults`) -/

/-- Everything one `AlgoliaSearchResults` object closes over: the registry,
the queryset's element type and rows, and the hits the external service
returns for the compiled query. -/
structure SearchEnv where
  registry : Registry
  target : Nat
  queryset : List MObj
  hits : List String

/-- The mutable fields of one `AlgoliaSearchResults` object, plus a counter
of round trips to the external service (`index.search` calls). -/
structure ResultsState where
  searchCalls : Nat
  searchCache : Option (List MObj)
  resultsCache : Option (List MObj)
  countCache : Option Nat

/-- A fresh result object: no cache populated, no search issued. -/
def initResults : ResultsState := ⟨0, none, none, none⟩

/-- `AlgoliaSearchResults._do_search` as a state transformer.
`if self._search_cache:` is a Python truthiness test: both `None` and an
empty (already reconciled) queryset are falsy, so only a cached non-empty
result list short-circuits.  Otherwise `search_index()` performs one round
trip, and on success all three caches are populated. -/
def resultsDoSearch (env : SearchEnv) (s : ResultsState) :
    ResultsState × Except PyError (List MObj) :=
  match s.searchCache with
  | some (x :: xs) => (s, .ok (x :: xs))
  | _ =>
    let s1 : ResultsState := { s with searchCalls := s.searchCalls + 1 }
    match do_search_result env.registry env.target env.queryset env.hits with
    | .error e => (s1, .error e)
    | .ok res =>
      ({ s1 with
          searchCache := some res
          resultsCache := some res
          countCache := some res.length }, .ok res)

/-- `count()` (Wagtail `BaseSearchResults`, with the backend's `_do_count`):
`if self._count_cache is None: self._do_search(); return self._count_cache`. -/
def resultsCount (env : SearchEnv) (s : ResultsState) :
    ResultsState × Except PyError Nat :=
  match s.countCache with
  | some c => (s, .ok c)
  | none =>
    let (s1, r) := resultsDoSearch env s
    match r with
    | .error e => (s1, .error e)
    | .ok _ => (s1, .ok (s1.countCache.getD 0))

/-- `results()` / iteration (Wagtail `BaseSearchResults`):
`if self._results_cache is None: self._results_cache = list(self._do_search())`. -/
def resultsList (env : SearchEnv) (s : ResultsState) :
    ResultsState × Except PyError (List MObj) :=
  match s.resultsCache with
  | some l => (s, .ok l)
  | none =>
    let (s1, r) := resultsDoSearch env s
    match r with
    | .error e => (s1, .error e)
    | .ok res => ({ s1 with resultsCache := some res }, .ok res)

/-! # Theorems

Helper lemmas first (shared between claims), then one theorem per claim. -/

/-! ## Dict lemmas -/

theorem lookup_dictSet_self (d : List (String × PyVal)) (k : String) (v : PyVal) :
    (dictSet d k v).lookup k = some v := by
  induction d with
  | nil => simp [dictSet, List.lookup]
  | cons hd tl ih =>
    obtain ⟨k', v'⟩ := hd
    by_cases h : k' = k
    · subst h
      simp [dictSet, List.lookup]
    · have hne : (k == k') = false := by
        simp [Ne.symm h]
      simp [dictSet, h, List.lookup, hne, ih]

theorem lookup_dictSet_ne (d : List (String × PyVal)) (k k2 : String) (v : PyVal)
    (h : k ≠ k2) : (dictSet d k v).lookup k2 = d.lookup k2 := by
  induction d with
  | nil =>
    have hne : (k2 == k) = false := by simp [Ne.symm h]
    simp [dictSet, List.lookup, hne]
  | cons hd tl ih =>
    obtain ⟨k', v'⟩ := hd
    by_cases hk : k' = k
    · subst hk
      have hne : (k2 == k') = false := by simp [Ne.symm h]
      simp [dictSet, List.lookup, hne]
    · simp [dictSet, hk, List.lookup, ih]

theorem lookup_append_single (d : List (String × PyVal)) (key k2 : String)
    (x : PyVal) (h : key ≠ k2) :
    (d ++ [(key, x)]).lookup k2 = d.lookup k2 := by
  induction d with
  | nil =>
    have hne : (k2 == key) = false := by simp [Ne.symm h]
    simp [List.lookup, hne]
  | cons hd tl ih =>
    obtain ⟨a, b⟩ := hd
    by_cases hk : k2 == a
    · simp [List.lookup, hk]
    · simp [List.lookup, hk, ih]

theorem dictGet_dictSetNested_ne (d : List (String × PyVal))
    (key fieldName k2 : String) (v : PyVal) (h : key ≠ k2) :
    dictGet (dictSetNested d key fieldName v) k2 = dictGet d k2 := by
  unfold dictSetNested
  cases hd : dictGet d key with
  | none => simpa [dictGet] using lookup_append_single d key k2 _ h
  | some val =>
    cases val with
    | vdict kvs => simpa [dictGet] using lookup_dictSet_ne d key k2 _ h
    | vnone => rfl
    | vstr s => rfl
    | vint n => rfl
    | vbool b => rfl
    | vmodel pk attrs => rfl
    | vmanager objs => rfl
    | vlist xs => rfl
    | vcallable r => rfl

theorem dictGet_foldl_writes (writes : List (String × String × PyVal))
    (d : List (String × PyVal)) (k2 : String)
    (h : ∀ w ∈ writes, w.1 ≠ k2) :
    dictGet (writes.foldl (fun d w => dictSetNested d w.1 w.2.1 w.2.2) d) k2
      = dictGet d k2 := by
  induction writes generalizing d with
  | nil => rfl
  | cons w ws ih =>
    simp only [List.foldl_cons]
    rw [ih _ (fun u hu => h u (List.mem_cons_of_mem _ hu)),
      dictGet_dictSetNested_ne _ _ _ _ _ (h w (List.mem_cons_self _ _))]

/-! ## Root keys never collide with sub-object keys -/

theorem hasDU_cons (c : Char) (l : List Char)
    (h : hasDoubleUnderscore l = true) :
    hasDoubleUnderscore (c :: l) = true := by
  cases l with
  | nil => simp [hasDoubleUnderscore] at h
  | cons b rest => simp [hasDoubleUnderscore, h]

theorem hasDU_append (x y : List Char) :
    hasDoubleUnderscore (x ++ '_' :: '_' :: y) = true := by
  induction x with
  | nil => simp [hasDoubleUnderscore]
  | cons c t ih => exact hasDU_cons c _ ih

theorem string_data_inj (s t : String) (h : s.data = t.data) : s = t :=
  congrArg String.mk h

theorem appended_key_ne (a b root : String)
    (hroot : hasDoubleUnderscore root.data = false) :
    a ++ "__" ++ b ≠ root := by
  intro h
  have hdata : (a ++ "__" ++ b).data = root.data := congrArg String.data h
  rw [String.data_append, String.data_append] at hdata
  have hud : "__".data = ['_', '_'] := rfl
  rw [hud, List.append_assoc] at hdata
  have hdata2 : a.data ++ '_' :: '_' :: b.data = root.data := hdata
  have hdu := hasDU_append a.data b.data
  rw [hdata2] at hdu
  rw [hroot] at hdu
  exact Bool.false_ne_true hdu

theorem fieldWrites_key_shape (registry : Registry) (obj : MObj) :
    ∀ w ∈ fieldWrites registry obj, ∃ a b : String, w.1 = a ++ "__" ++ b := by
  intro w hw
  unfold fieldWrites at hw
  rw [List.mem_flatMap] at hw
  obtain ⟨field, _, hmem⟩ := hw
  rw [List.mem_map] at hmem
  obtain ⟨p, _, hp⟩ := hmem
  refine ⟨(registry.getD (get_definition_model p.1) defMType).appLabel,
    (registry.getD (get_definition_model p.1) defMType).objectName, ?_⟩
  rw [← hp]
  rfl

theorem get_document_root_key (registry : Registry) (obj : MObj) (root : String)
    (hroot : hasDoubleUnderscore root.data = false) :
    dictGet (get_document registry obj) root = dictGet (rootDoc registry obj) root := by
  unfold get_document
  refine dictGet_foldl_writes _ _ _ ?_
  intro w hw
  obtain ⟨a, b, hab⟩ := fieldWrites_key_shape registry obj w hw
  rw [hab]
  exact appended_key_ne a b root hroot

/-! ## objectID injectivity -/

theorem append_sep_inj {α : Type} [DecidableEq α] (c : α) :
    ∀ (a a2 b b2 : List α), c ∉ a → c ∉ a2 →
      a ++ c :: b = a2 ++ c :: b2 → a = a2 ∧ b = b2 := by
  intro a
  induction a with
  | nil =>
    intro a2 b b2 _ ha2 h
    cases a2 with
    | nil => simpa using h
    | cons x t =>
      simp only [List.nil_append, List.cons_append, List.cons.injEq] at h
      obtain ⟨hx, _⟩ := h
      exact absurd (by rw [hx]; exact List.mem_cons_self x t) ha2
  | cons x t ih =>
    intro a2 b b2 ha ha2 h
    cases a2 with
    | nil =>
      simp only [List.nil_append, List.cons_append, List.cons.injEq] at h
      obtain ⟨hx, _⟩ := h
      exact absurd (by rw [← hx]; exact List.mem_cons_self x t) ha
    | cons y t2 =>
      simp only [List.cons_append, List.cons.injEq] at h
      obtain ⟨hxy, htail⟩ := h
      have hat : c ∉ t := fun hm => ha (List.mem_cons_of_mem _ hm)
      have hat2 : c ∉ t2 := fun hm => ha2 (List.mem_cons_of_mem _ hm)
      obtain ⟨h1, h2⟩ := ih t2 b b2 hat hat2 htail
      exact ⟨by rw [hxy, h1], h2⟩

theorem get_object_id_inj (ty1 ty2 : MType) (pk1 pk2 : String)
    (h2 : ':' ∉ ty1.objectName.data) (h3 : '.' ∉ ty1.appLabel.data)
    (h5 : ':' ∉ ty2.objectName.data) (h6 : '.' ∉ ty2.appLabel.data)
    (heq : get_object_id ty1 pk1 = get_object_id ty2 pk2) :
    ty1.appLabel = ty2.appLabel ∧ ty1.objectName = ty2.objectName ∧ pk1 = pk2 := by
  have hdata : (get_object_id ty1 pk1).data = (get_object_id ty2 pk2).data :=
    congrArg String.data heq
  unfold get_object_id at hdata
  have hdot : ".".data = ['.'] := rfl
  have hcolon : ":".data = [':'] := rfl
  simp only [String.data_append, hdot, hcolon, List.append_assoc,
    List.singleton_append] at hdata
  obtain ⟨happ, hrest⟩ := append_sep_inj '.' _ _ _ _ h3 h6 hdata
  obtain ⟨hname, hpk⟩ := append_sep_inj ':' _ _ _ _ h2 h5 hrest
  exact ⟨string_data_inj _ _ happ, string_data_inj _ _ hname,
    string_data_inj _ _ hpk⟩

/-! ## Root-key lookups in the freshly built document -/

theorem rootDoc_objectID (registry : Registry) (obj : MObj) :
    dictGet (rootDoc registry obj) "objectID"
      = some (.vstr (get_object_id_of registry obj)) := by
  unfold rootDoc dictGet
  rw [lookup_dictSet_ne _ _ _ _ (by decide), lookup_dictSet_ne _ _ _ _ (by decide),
    lookup_dictSet_ne _ _ _ _ (by decide)]
  exact lookup_dictSet_self _ _ _

theorem rootDoc_wagtail_managed (registry : Registry) (obj : MObj) :
    dictGet (rootDoc registry obj) "wagtail_managed" = some (.vbool true) := by
  unfold rootDoc dictGet
  rw [lookup_dictSet_ne _ _ _ _ (by decide), lookup_dictSet_ne _ _ _ _ (by decide)]
  exact lookup_dictSet_self _ _ _

theorem rootDoc_locale (registry : Registry) (obj : MObj) :
    dictGet (rootDoc registry obj) "locale"
      = some (match obj.locale with | some lc => .vstr lc | none => .vnone) := by
  unfold rootDoc dictGet
  rw [lookup_dictSet_ne _ _ _ _ (by decide)]
  exact lookup_dictSet_self _ _ _

theorem rootDoc_model (registry : Registry) (obj : MObj) :
    dictGet (rootDoc registry obj) "model"
      = some (.vstr ((typeOf registry obj).appLabel ++ "." ++
          (typeOf registry obj).objectName)) := by
  unfold rootDoc dictGet
  exact lookup_dictSet_self _ _ _

/-! ## Claim C4 -/

/-- Claim C4. For every object instance, the document produced by
`get_document` contains the four root-level bookkeeping keys `objectID`,
`wagtail_managed`, `locale` and `model`; `objectID` renders as
`<app_label>.<object_name>:<pk>` (the value of `get_object_id`),
`wagtail_managed` is the constant `true`; and the `objectID` is injective
in the (type, id) pair, given that Django identifiers contain no `:` and
app labels no `.` (app labels and class names are Python identifiers, pks
render as digits).  Stability across rebuilds is purity: `get_document` is
a function of the instance alone. -/
theorem algolia_c4_document_bookkeeping (registry : Registry) (obj obj2 : MObj)
    (h2 : ':' ∉ (typeOf registry obj).objectName.data)
    (h3 : '.' ∉ (typeOf registry obj).appLabel.data)
    (h6 : ':' ∉ (typeOf registry obj2).objectName.data)
    (h7 : '.' ∉ (typeOf registry obj2).appLabel.data) :
    dictGet (get_document registry obj) "objectID"
        = some (.vstr (get_object_id_of registry obj))
    ∧ dictGet (get_document registry obj) "wagtail_managed"
        = some (.vbool true)
    ∧ dictGet (get_document registry obj) "locale"
        = some (match obj.locale with | some lc => .vstr lc | none => .vnone)
    ∧ dictGet (get_document registry obj) "model"
        = some (.vstr ((typeOf registry obj).appLabel ++ "." ++
            (typeOf registry obj).objectName))
    ∧ (get_object_id_of registry obj = get_object_id_of registry obj2 →
        (typeOf registry obj).appLabel = (typeOf registry obj2).appLabel
        ∧ (typeOf registry obj).objectName = (typeOf registry obj2).objectName
        ∧ obj.pk = obj2.pk) := by
  refine ⟨?_, ?_, ?_, ?_, ?_⟩
  · rw [get_document_root_key registry obj _ (by decide)]
    exact rootDoc_objectID registry obj
  · rw [get_document_root_key registry obj _ (by decide)]
    exact rootDoc_wagtail_managed registry obj
  · rw [get_document_root_key registry obj _ (by decide)]
    exact rootDoc_locale registry obj
  · rw [get_document_root_key registry obj _ (by decide)]
    exact rootDoc_model registry obj
  · intro heq
    exact get_object_id_inj _ _ _ _ h2 h3 h6 h7 heq

/-- Witness for C4 at a concrete registry and instances. -/
theorem algolia_c4_witness :
    dictGet
        (get_document [⟨"blog", "BlogPage", [0], []⟩]
          ⟨0, "42", some "en", [], []⟩)
        "wagtail_managed" = some (.vbool true)
    ∧ (get_object_id_of [⟨"blog", "BlogPage", [0], []⟩] ⟨0, "42", some "en", [], []⟩
          = get_object_id_of [⟨"blog", "BlogPage", [0], []⟩] ⟨0, "43", none, [], []⟩ →
        (⟨0, "42", some "en", [], []⟩ : MObj).pk = (⟨0, "43", none, [], []⟩ : MObj).pk) := by
  have h := algolia_c4_document_bookkeeping [⟨"blog", "BlogPage", [0], []⟩]
    ⟨0, "42", some "en", [], []⟩ ⟨0, "43", none, [], []⟩
    (by decide) (by decide) (by decide) (by decide)
  exact ⟨h.2.1, fun heq => (h.2.2.2.2 heq).2.2⟩

/-! ## Claim C10 -/

/-- Claim C10. The identifier `delete_item` passes to the external delete
operation is exactly the `objectID` root key of the document that
`get_document` builds for the same instance: a delete after an add targets
precisely the document the add created. -/
theorem algolia_c10_delete_targets_added_document (registry : Registry) (obj : MObj) :
    dictGet (get_document registry obj) "objectID"
      = some (.vstr (delete_item_object_id registry obj)) := by
  rw [get_document_root_key registry obj _ (by decide)]
  exact rootDoc_objectID registry obj

/-! ## Claim C2 -/

/-- Claim C2 is violated by the code: for a `RelatedFields` descriptor whose
extracted value is `None`, `prepare_field` yields `(field, None)` and then,
lacking a `return`, falls through into the single-valued branch and yields
a second pair.  Evaluated here at a `RelatedFields("author", [])` descriptor
on an instance whose `author` attribute is `None`: two pairs come out, the
second one `(field, {})`.  (With a non-empty nested descriptor list the
second pair is built by extracting attributes from `None`, which raises
`AttributeError` in Python — either way the classifier does not stop after
the single null pair.) -/
theorem algolia_c2_null_related_yields_two_pairs :
    prepare_field (.vmodel "1" [("author", .vnone)]) (.relatedF "author" 0 [])
      = [(.relatedF "author" 0 [], .vnone), (.relatedF "author" 0 [], .vdict [])] := by
  simp [prepare_field, get_value, SField.fieldName, List.lookup]

/-! ## Claim C7 -/

/-- Claim C7. For every query string, `get_query` returns the pair of the
query string and exactly the fixed parameter set
`{filters: "wagtail_managed:true", attributesToRetrieve: ["objectID"],
attributesToHighlight: []}`; the host queryset the compiler holds (with
whatever filters it carries) has no influence on the compiled query
(`_get_filters_from_where_node` is `pass`). -/
theorem algolia_c7_query_compiler (qs qs2 : List MObj) (q : String) :
    get_query ⟨qs, q⟩
        = (q, { filters := "wagtail_managed:true"
                attributesToRetrieve := ["objectID"]
                attributesToHighlight := [] })
    ∧ get_query ⟨qs, q⟩ = get_query ⟨qs2, q⟩ :=
  ⟨rfl, rfl⟩

/-! ## Heap lemmas -/

theorem Heap.get_set_self (h : Heap) (r : Nat) (v : List String)
    (hr : r < h.lists.length) : (h.set r v).get r = v := by
  simp [Heap.get, Heap.set, List.getD_eq_getElem?_getD, List.getElem?_set_self hr]

theorem Heap.get_set_ne (h : Heap) (r r2 : Nat) (v : List String)
    (hne : r ≠ r2) : (h.set r v).get r2 = h.get r2 := by
  simp [Heap.get, Heap.set, List.getD_eq_getElem?_getD, List.getElem?_set_ne hne]

theorem Heap.get_append_lt (h : Heap) (v : List String) (r2 : Nat)
    (hr : r2 < h.lists.length) :
    (Heap.mk (h.lists ++ [v])).get r2 = h.get r2 := by
  simp [Heap.get, List.getD_eq_getElem?_getD, List.getElem?_append, hr]

theorem Heap.get_append_self (h : Heap) (v : List String) :
    (Heap.mk (h.lists ++ [v])).get h.lists.length = v := by
  simp [Heap.get, List.getD_eq_getElem?_getD, List.getElem?_append]

/-! ## Claim C5 -/

/-- Claim C5 counterexample. `update_settings` does not operate on a deep
copy: with a base configuration already holding a non-empty
`attributesForFaceting` list (here the list object at heap address 0,
containing `"customAttr"`), the call extends the caller's own nested list
in place, so the claim that every structure nested inside the caller's
configuration is unchanged is false. -/
theorem algolia_c5_counterexample :
    (update_settings [] ⟨some 0, []⟩ ⟨[["customAttr"]]⟩).2.1.get 0
      ≠ (Heap.mk [["customAttr"]]).get 0 := by
  decide

/-- Claim C5 amended. `update_settings` copies the top-level configuration
map, so the caller's own key bindings (the non-list entries) are unchanged;
but the copy is shallow.  When the base configuration has no
`attributesForFaceting` entry, or its list is empty (falsy), a fresh list
is allocated and every pre-existing list object — in particular everything
nested in the caller's configuration — is left unchanged.  When the base
holds a non-empty `attributesForFaceting` list, that shared list object is
extended in place with the fixed attributes and the per-model entries, and
the caller observes the mutation. -/
theorem algolia_c5_amended_shallow_copy (registry : Registry)
    (base : IndexSettings) (h : Heap) :
    (base.aff = none →
      ∀ r2, r2 < h.lists.length →
        (update_settings registry base h).2.1.get r2 = h.get r2)
    ∧ (∀ r, base.aff = some r → h.get r = [] →
        ∀ r2, r2 < h.lists.length →
          (update_settings registry base h).2.1.get r2 = h.get r2)
    ∧ (∀ r, base.aff = some r → r < h.lists.length → h.get r ≠ [] →
        (update_settings registry base h).2.1.get r
          = h.get r ++ fixedFacetAttrs ++ allModelFacetEntries registry)
    ∧ (update_settings registry base h).1.rest = base.rest := by
  refine ⟨?_, ?_, ?_, ?_⟩
  · intro ha r2 hr2
    simp only [update_settings, ha, Heap.alloc, Option.getD_some]
    rw [Heap.get_set_ne _ _ _ _ (by omega), Heap.get_append_lt h [] r2 hr2]
  · intro r ha hempty r2 hr2
    simp only [update_settings, ha, Heap.alloc]
    rw [if_pos hempty]
    simp only [Option.getD_some]
    rw [Heap.get_set_ne _ _ _ _ (by omega), Heap.get_append_lt h [] r2 hr2]
  · intro r ha hr hne
    simp only [update_settings, ha, Heap.alloc]
    rw [if_neg hne]
    simp only [Option.getD_some]
    rw [Heap.get_set_self _ _ _ hr]
  · rcases ha : base.aff with _ | r
    · simp [update_settings, ha, Heap.alloc]
    · by_cases hempty : h.get r = []
      · simp [update_settings, ha, Heap.alloc, if_pos hempty]
      · simp [update_settings, ha, Heap.alloc, if_neg hempty]

/-- Witness for the amended C5 at concrete inputs: the non-empty shared
list is extended in place (mutation observed by the caller), and with an
absent key the caller's heap cell is untouched. -/
theorem algolia_c5_witness :
    (update_settings [] ⟨some 0, []⟩ ⟨[["customAttr"]]⟩).2.1.get 0
        = (Heap.mk [["customAttr"]]).get 0 ++ fixedFacetAttrs
            ++ allModelFacetEntries []
    ∧ (update_settings [] ⟨none, []⟩ ⟨[["customAttr"]]⟩).2.1.get 0
        = (Heap.mk [["customAttr"]]).get 0 := by
  constructor
  · exact (algolia_c5_amended_shallow_copy [] ⟨some 0, []⟩
      ⟨[["customAttr"]]⟩).2.2.1 0 rfl (by decide) (by decide)
  · exact (algolia_c5_amended_shallow_copy [] ⟨none, []⟩
      ⟨[["customAttr"]]⟩).1 rfl 0 (by decide)

/-! ## Claim C6 -/

theorem flatMap_congr_mem {α β : Type} (l : List α) (f g : α → List β)
    (h : ∀ a ∈ l, f a = g a) : l.flatMap f = l.flatMap g := by
  induction l with
  | nil => rfl
  | cons x t ih =>
    rw [List.flatMap_cons, List.flatMap_cons, h x (List.mem_cons_self x t),
      ih (fun a ha => h a (List.mem_cons_of_mem _ ha))]

theorem flatMap_eq_of_count_one {α β : Type} [BEq α] [LawfulBEq α]
    (l : List α) (i : α) (g : α → List β)
    (hcount : l.count i = 1) (hother : ∀ a ∈ l, a ≠ i → g a = []) :
    l.flatMap g = g i := by
  induction l with
  | nil => simp at hcount
  | cons x t ih =>
    rw [List.flatMap_cons]
    by_cases hx : x = i
    · subst hx
      have ht : t.count x = 0 := by
        simp [List.count_cons] at hcount
        omega
      have hnil : t.flatMap g = [] := by
        rw [List.flatMap_eq_nil_iff]
        intro a ha
        rcases eq_or_ne a x with rfl | hne
        · exact absurd ha (List.count_eq_zero.mp ht)
        · exact hother a (List.mem_cons_of_mem _ ha) hne
      rw [hnil, List.append_nil]
    · have hgx : g x = [] := hother x (List.mem_cons_self _ _) hx
      have hc : t.count i = 1 := by
        have hbx : (x == i) = false := by simp [hx]
        simpa [List.count_cons, hbx] using hcount
      rw [hgx, List.nil_append,
        ih hc (fun a ha hne => hother a (List.mem_cons_of_mem _ ha) hne)]

/-- Under a well-formed registry, the `get_definition_model == model`
filter over the full (own + inherited) filterable descriptor list leaves
exactly the model's directly-declared filter fields: inherited descriptors
are attributed to their declaring ancestor and dropped here. -/
theorem modelFacetEntries_eq_own (registry : Registry) (i : Nat)
    (hi : i < registry.length)
    (hw1 : ∀ j, j < registry.length →
      ∀ f ∈ (registry.getD j defMType).ownFields, f.declaredIn = j)
    (hw2 : (registry.getD i defMType).mro.count i = 1)
    (hw3 : ∀ a ∈ (registry.getD i defMType).mro, a < registry.length) :
    modelFacetEntries registry i
      = ((registry.getD i defMType).ownFields.filter SField.isFilter).map
          (fun f =>
            "filterOnly(" ++ (registry.getD i defMType).appLabel ++ "__" ++
              (registry.getD i defMType).objectName ++ "." ++ f.fieldName ++ ")") := by
  unfold modelFacetEntries get_filterable_search_fields get_search_fields
  rw [List.filter_filter, List.filter_flatMap]
  have hflat :
      ((registry.getD i defMType).mro.reverse).flatMap
          (fun a => ((registry.getD a defMType).ownFields).filter
            (fun f => get_definition_model f == i && f.isFilter))
        = ((registry.getD i defMType).ownFields).filter
            (fun f => get_definition_model f == i && f.isFilter) := by
    refine flatMap_eq_of_count_one _ i _ ?_ ?_
    · rw [List.count_reverse]
      exact hw2
    · intro a ha hne
      rw [List.filter_eq_nil_iff]
      intro f hf
      have hd : f.declaredIn = a :=
        hw1 a (hw3 a (List.mem_reverse.mp ha)) f hf
      simp [get_definition_model, hd, hne]
  rw [hflat]
  have hsame :
      ((registry.getD i defMType).ownFields).filter
          (fun f => get_definition_model f == i && f.isFilter)
        = ((registry.getD i defMType).ownFields).filter SField.isFilter := by
    refine List.filter_congr ?_
    intro f hf
    have hd : f.declaredIn = i := hw1 i hi f hf
    simp [get_definition_model, hd]
  rw [hsame]

/-- Claim C6. The `attributesForFaceting` payload pushed by
`update_settings` is the base list (empty when the key was absent or its
list empty), then `filterOnly(wagtail_managed)`, `locale`, `model`, then —
types in registration order, fields in declaration order — exactly one
`filterOnly(<app>__<Name>.<field>)` entry per FilterField declared
directly by each registered type; inherited FilterFields contribute no
entry of their own.  Well-formedness of the registry: every descriptor in
a type's `ownFields` is declared by that type, every MRO mentions its own
type exactly once, and MRO entries are registered. -/
theorem algolia_c6_facet_settings (registry : Registry)
    (base : IndexSettings) (h : Heap)
    (hr : ∀ r, base.aff = some r → r < h.lists.length)
    (hw1 : ∀ j, j < registry.length →
      ∀ f ∈ (registry.getD j defMType).ownFields, f.declaredIn = j)
    (hw2 : ∀ j, j < registry.length → (registry.getD j defMType).mro.count j = 1)
    (hw3 : ∀ j, j < registry.length →
      ∀ a ∈ (registry.getD j defMType).mro, a < registry.length) :
    (update_settings registry base h).2.2
      = (match base.aff with
          | none => []
          | some r => if h.get r = [] then [] else h.get r)
        ++ fixedFacetAttrs
        ++ (List.range registry.length).flatMap (fun i =>
            ((registry.getD i defMType).ownFields.filter SField.isFilter).map
              (fun f =>
                "filterOnly(" ++ (registry.getD i defMType).appLabel ++ "__" ++
                  (registry.getD i defMType).objectName ++ "." ++
                  f.fieldName ++ ")")) := by
  have hentries : allModelFacetEntries registry
      = (List.range registry.length).flatMap (fun i =>
          ((registry.getD i defMType).ownFields.filter SField.isFilter).map
            (fun f =>
              "filterOnly(" ++ (registry.getD i defMType).appLabel ++ "__" ++
                (registry.getD i defMType).objectName ++ "." ++
                f.fieldName ++ ")")) := by
    unfold allModelFacetEntries
    refine flatMap_congr_mem _ _ _ ?_
    intro i hi
    have hlt : i < registry.length := List.mem_range.mp hi
    exact modelFacetEntries_eq_own registry i hlt hw1 (hw2 i hlt) (hw3 i hlt)
  rcases ha : base.aff with _ | r
  · simp only [update_settings, ha, Heap.alloc, Option.getD_some]
    rw [Heap.get_set_self _ _ _ (by simp), Heap.get_append_self]
    simp [hentries]
  · by_cases hempty : h.get r = []
    · simp only [update_settings, ha, Heap.alloc]
      rw [if_pos hempty]
      simp only [Option.getD_some]
      rw [Heap.get_set_self _ _ _ (by simp), Heap.get_append_self]
      simp [hempty, hentries]
    · simp only [update_settings, ha, Heap.alloc]
      rw [if_neg hempty]
      simp only [Option.getD_some]
      rw [Heap.get_set_self _ _ _ (hr r ha)]
      simp [hempty, hentries]

/-- Witness for C6: a `Page`-like root type and a `BlogPage` subtype.
`BlogPage` inherits `title` (declared on the root) and declares
`is_featured`; the payload holds one entry for each of the two directly
declared FilterFields and none for the inherited one. -/
theorem algolia_c6_witness :
    (update_settings
        [⟨"wagtailcore", "Page", [0], [.filterF "title" 0, .searchF "title" 0]⟩,
         ⟨"tests", "BlogPage", [1, 0],
           [.searchF "introduction" 1, .filterF "is_featured" 1]⟩]
        ⟨none, [("queryLanguages", "en")]⟩ ⟨[]⟩).2.2
      = [] ++ fixedFacetAttrs ++
          ["filterOnly(wagtailcore__Page.title)",
           "filterOnly(tests__BlogPage.is_featured)"] := by
  rw [algolia_c6_facet_settings _ _ _ (by simp) (by decide) (by decide) (by decide)]
  rfl

/-! ## Claim C3 -/

/-- Claim C3 counterexample. A hit whose `objectID` splits into exactly two
parts (`"foo.Bar:5"`) and whose well-formed dotted type name is not
registered is not skipped: `apps.get_model` raises `LookupError`, which the
`except ValueError` handler does not catch, so reconciliation aborts and
the error propagates to the caller. -/
theorem algolia_c3_counterexample :
    do_search_result [⟨"blog", "BlogPage", [0], []⟩] 0 [] ["foo.Bar:5"]
      = .error .lookupError := rfl

/-- Claim C3 amended. For a hit whose `objectID` splits into exactly two
parts, resolution failure is absorbed only when it raises `ValueError` —
when the type name is not a single dot-separated `app_label.ModelName`
pair — in which case the hit is skipped and reconciliation of the
remaining hits proceeds; a well-formed dotted name that resolves to no
registered type raises `LookupError`, which is not caught: the whole
reconciliation aborts with it. -/
theorem algolia_c3_amended_resolution (registry : Registry) (target : Nat)
    (hit : String) (nameChars pkChars : List Char) (rest : List String)
    (hsplit : splitOnChar ':' hit.data = [nameChars, pkChars]) :
    ((splitOnChar '.' nameChars).length ≠ 2 →
      collectPks registry target (hit :: rest)
        = collectPks registry target rest)
    ∧ (∀ a b, splitOnChar '.' nameChars = [a, b] →
        registry.findIdx?
            (fun m => m.appLabel.data == a && m.objectName.data == b) = none →
        collectPks registry target (hit :: rest) = .error .lookupError) := by
  constructor
  · intro hlen
    have hv : apps_get_model registry nameChars = .error .valueError := by
      unfold apps_get_model
      rcases hsp : splitOnChar '.' nameChars with _ | ⟨a, _ | ⟨b, _ | ⟨c, t⟩⟩⟩
      · rfl
      · rfl
      · exact absurd (by rw [hsp]; rfl) hlen
      · rfl
    simp only [collectPks, hsplit, hv]
  · intro a b hsp hfind
    have hv : apps_get_model registry nameChars = .error .lookupError := by
      simp [apps_get_model, hsp, hfind]
    simp only [collectPks, hsplit, hv]

/-- Witness for the amended C3: with one registered type `blog.BlogPage`,
the hit `"fooBar:5"` (no dot in the name, `ValueError`) is skipped, while
`"foo.Bar:5"` (well-formed dotted name, unregistered) aborts with
`LookupError`. -/
theorem algolia_c3_witness :
    collectPks [⟨"blog", "BlogPage", [0], []⟩] 0 ["fooBar:5"] = .ok []
    ∧ collectPks [⟨"blog", "BlogPage", [0], []⟩] 0 ["foo.Bar:5"]
        = .error .lookupError := by
  constructor
  · have h := (algolia_c3_amended_resolution [⟨"blog", "BlogPage", [0], []⟩] 0
      "fooBar:5" "fooBar".data "5".data [] rfl).1
    rw [h (by decide)]
    rfl
  · exact (algolia_c3_amended_resolution [⟨"blog", "BlogPage", [0], []⟩] 0
      "foo.Bar:5" "foo.Bar".data "5".data [] rfl).2 "foo".data "Bar".data rfl rfl

/-! ## Claim C9 -/

/-- Claim C9. Within the lifetime of one result object, the external search
round trip happens at most once for the count/results path: calling
`count()` twice and then materialising the results issues exactly one
`index.search` call, both counts are answered from the memoised cache and
the final iteration is served from the results cache. -/
theorem algolia_c9_memoisation (env : SearchEnv) (res : List MObj)
    (hok : do_search_result env.registry env.target env.queryset env.hits
      = .ok res) :
    ((resultsList env (resultsCount env (resultsCount env initResults).1).1).1).searchCalls = 1
    ∧ (resultsCount env initResults).2 = .ok res.length
    ∧ (resultsCount env (resultsCount env initResults).1).2 = .ok res.length
    ∧ (resultsList env (resultsCount env (resultsCount env initResults).1).1).2
        = .ok res := by
  have h1 : resultsCount env initResults
      = ({ searchCalls := 1, searchCache := some res, resultsCache := some res,
            countCache := some res.length }, .ok res.length) := by
    simp [resultsCount, resultsDoSearch, initResults, hok]
  have h2 : resultsCount env (resultsCount env initResults).1
      = ({ searchCalls := 1, searchCache := some res, resultsCache := some res,
            countCache := some res.length }, .ok res.length) := by
    rw [h1]
    simp [resultsCount]
  have h3 : resultsList env (resultsCount env (resultsCount env initResults).1).1
      = ({ searchCalls := 1, searchCache := some res, resultsCache := some res,
            countCache := some res.length }, .ok res) := by
    rw [h2]
    simp [resultsList]
  rw [h3, h2, h1]
  exact ⟨rfl, rfl, rfl, rfl⟩

/-- Witness for C9: one registered type, a queryset with one instance, one
matching hit; the scenario count-count-list issues exactly one search. -/
theorem algolia_c9_witness :
    ((resultsList
        ⟨[⟨"blog", "BlogPage", [0], []⟩], 0,
          [⟨0, "1", none, [], []⟩], ["blog.BlogPage:1"]⟩
        (resultsCount
            ⟨[⟨"blog", "BlogPage", [0], []⟩], 0,
              [⟨0, "1", none, [], []⟩], ["blog.BlogPage:1"]⟩
            (resultsCount
                ⟨[⟨"blog", "BlogPage", [0], []⟩], 0,
                  [⟨0, "1", none, [], []⟩], ["blog.BlogPage:1"]⟩
                initResults).1).1).1).searchCalls = 1 :=
  (algolia_c9_memoisation
    ⟨[⟨"blog", "BlogPage", [0], []⟩], 0,
      [⟨0, "1", none, [], []⟩], ["blog.BlogPage:1"]⟩
    [⟨0, "1", none, [], []⟩] rfl).1

/-! ## Claim C1 -/

theorem caseFirstMatch_eq_none (pks : List (List Char)) (pk : List Char) :
    caseFirstMatch pks pk = none ↔ pk ∉ pks := by
  induction pks with
  | nil => simp [caseFirstMatch]
  | cons p rest ih =>
    by_cases hp : pk = p
    · subst hp
      simp [caseFirstMatch]
    · simp [caseFirstMatch, hp, Option.map_eq_none', ih]

theorem caseFirstMatch_some_getElem (pks : List (List Char)) (pk : List Char)
    (i : Nat) (h : caseFirstMatch pks pk = some i) : pks[i]? = some pk := by
  induction pks generalizing i with
  | nil => simp [caseFirstMatch] at h
  | cons p rest ih =>
    by_cases hp : pk = p
    · subst hp
      have h0 : i = 0 := by
        simp [caseFirstMatch] at h
        omega
      subst h0
      simp
    · simp only [caseFirstMatch, if_neg hp] at h
      rcases hmap : caseFirstMatch rest pk with _ | j
      · rw [hmap] at h
        simp at h
      · rw [hmap] at h
        simp only [Option.map_some', Option.some.injEq] at h
        subst h
        simpa using ih j hmap

theorem caseFirstMatch_of_getElem (pks : List (List Char)) (pk : List Char)
    (i : Nat) (hnd : pks.Nodup) (h : pks[i]? = some pk) :
    caseFirstMatch pks pk = some i := by
  induction pks generalizing i with
  | nil => simp at h
  | cons p rest ih =>
    obtain ⟨hnp, hnr⟩ := List.nodup_cons.mp hnd
    cases i with
    | zero =>
      simp only [List.getElem?_cons_zero, Option.some.injEq] at h
      simp [caseFirstMatch, h.symm]
    | succ j =>
      have hj : rest[j]? = some pk := by simpa using h
      have hpk : pk ∈ rest := by
        obtain ⟨hlt, he⟩ := List.getElem?_eq_some_iff.mp hj
        exact he ▸ List.getElem_mem hlt
      have hne : pk ≠ p := fun he => hnp (he ▸ hpk)
      simp [caseFirstMatch, hne, ih j hnr hj]

theorem filter_pk_eq_find_toList (qs : List MObj) (p : List Char)
    (hq : (qs.map (fun o => o.pk.data)).Nodup) :
    qs.filter (fun o => o.pk.data == p)
      = (qs.find? (fun o => o.pk.data == p)).toList := by
  induction qs with
  | nil => rfl
  | cons a t ih =>
    rw [List.map_cons, List.nodup_cons] at hq
    obtain ⟨hna, hnt⟩ := hq
    by_cases ha : a.pk.data = p
    · have hb : (a.pk.data == p) = true := by simp [ha]
      have hnil : t.filter (fun o => o.pk.data == p) = [] := by
        rw [List.filter_eq_nil_iff]
        intro x hx hbx
        have hxp : x.pk.data = p := by simpa using hbx
        exact hna (List.mem_map.mpr ⟨x, hx, by rw [hxp, ha]⟩)
      simp [List.filter_cons, List.find?_cons, hb, hnil]
    · have hb : (a.pk.data == p) = false := by simp [ha]
      simp [List.filter_cons, List.find?_cons, hb, ih hnt]

theorem filterMap_eq_range_flatMap {α β : Type} (g : α → Option β)
    (l : List α) (d0 : α) :
    l.filterMap g
      = (List.range l.length).flatMap (fun i => (g (l.getD i d0)).toList) := by
  induction l with
  | nil => rfl
  | cons a t ih =>
    rw [List.length_cons, List.range_succ_eq_map, List.flatMap_cons,
      List.flatMap_map]
    simp only [List.getD_cons_zero, List.getD_cons_succ]
    rw [List.filterMap_cons]
    cases hga : g a with
    | none => simp [ih]
    | some b => simp [ih]

/-- The host-store requery reproduces the hit order: filtering the queryset
to the retained pks and ordering by the positional `Case` key yields, for
distinct pks and pk-unique rows, exactly the per-pk row lookups in pk-list
order. -/
theorem requeryHost_eq_filterMap (qs : List MObj) (pks : List (List Char))
    (hnd : pks.Nodup) (hq : (qs.map (fun o => o.pk.data)).Nodup) :
    requeryHost qs pks
      = pks.filterMap (fun p => qs.find? (fun o => o.pk.data == p)) := by
  unfold requeryHost order_by_case
  have htail : (qs.filter (fun o => pks.contains o.pk.data)).filter
      (fun o => caseFirstMatch pks o.pk.data == none) = [] := by
    rw [List.filter_eq_nil_iff]
    intro o ho hbeq
    have hmem : o.pk.data ∈ pks :=
      List.elem_iff.mp (List.mem_filter.mp ho).2
    have : caseFirstMatch pks o.pk.data = none := by simpa using hbeq
    exact (caseFirstMatch_eq_none pks o.pk.data).mp this hmem
  rw [htail, List.append_nil,
    filterMap_eq_range_flatMap (fun p => qs.find? (fun o => o.pk.data == p)) pks []]
  refine flatMap_congr_mem _ _ _ ?_
  intro i hi
  have hilt : i < pks.length := List.mem_range.mp hi
  rw [List.filter_filter, ← filter_pk_eq_find_toList qs (pks.getD i []) hq]
  refine List.filter_congr ?_
  intro o ho
  by_cases hkey : caseFirstMatch pks o.pk.data = some i
  · have hget : pks[i]? = some o.pk.data :=
      caseFirstMatch_some_getElem _ _ _ hkey
    have hgd : pks.getD i [] = o.pk.data := by
      rw [List.getD_eq_getElem?_getD, hget]
      rfl
    have hmem : o.pk.data ∈ pks := by
      obtain ⟨hlt, he⟩ := List.getElem?_eq_some_iff.mp hget
      exact he ▸ List.getElem_mem hlt
    simp [hkey, List.elem_iff, hmem, hget]
  · by_cases hpd : o.pk.data = pks.getD i []
    · exfalso
      have hget : pks[i]? = some o.pk.data := by
        rw [List.getElem?_eq_some_iff]
        refine ⟨hilt, ?_⟩
        rw [hpd, List.getD_eq_getElem?_getD, List.getElem?_eq_getElem hilt]
        rfl
      exact hkey (caseFirstMatch_of_getElem _ _ _ hnd hget)
    · have h1 : (caseFirstMatch pks o.pk.data == some i) = false := by
        simp [hkey]
      have hpd2 : ¬o.pk.data = pks[i]?.getD [] := by
        rw [← List.getD_eq_getElem?_getD]
        exact hpd
      have h2 : (o.pk.data == pks[i]?.getD []) = false := by simp [hpd2]
      simp [h1, h2]

theorem find_pk_of_mem : ∀ (qs : List MObj) (p : List Char) (o : MObj),
    (qs.map (fun x => x.pk.data)).Nodup → o ∈ qs → o.pk.data = p →
    qs.find? (fun x => x.pk.data == p) = some o := by
  intro qs
  induction qs with
  | nil =>
    intro p o _ hmem _
    simp at hmem
  | cons a t ih =>
    intro p o hq hmem hpk
    rw [List.map_cons, List.nodup_cons] at hq
    obtain ⟨hna, hnt⟩ := hq
    by_cases hap : a.pk.data = p
    · have hao : o = a := by
        rcases List.mem_cons.mp hmem with rfl | hot
        · rfl
        · exact absurd (List.mem_map.mpr ⟨o, hot, by rw [hpk, hap]⟩) hna
      subst hao
      have hb : (o.pk.data == p) = true := by simp [hap]
      simp [List.find?_cons, hb]
    · have hne2 : o ≠ a := fun he => hap (by rw [← he, hpk])
      have hot : o ∈ t := (List.mem_cons.mp hmem).resolve_left hne2
      have hb : (a.pk.data == p) = false := by simp [hap]
      simp [List.find?_cons, hb, ih p o hnt hot hpk]

/-- Claim C1. When every hit resolves, the reconciled result is exactly the
queryset instances of the type-matching hits, in hit (external relevance)
order — `collectPks` keeps, in order, the pks of exactly those hits whose
resolved type is the queryset's element type or a subtype of it, and the
host requery maps each retained pk to its instance in that order —
independently of the host store's default ordering (any permutation of the
queryset gives the same result).  Hypotheses: the retained pks are
distinct, and the queryset's rows have distinct pks. -/
theorem algolia_c1_reconciliation_order (registry : Registry) (target : Nat)
    (qs qs2 : List MObj) (hits : List String) (pks : List (List Char))
    (hok : collectPks registry target hits = .ok pks)
    (hnd : pks.Nodup)
    (hq : (qs.map (fun o => o.pk.data)).Nodup)
    (hperm : qs2.Perm qs) :
    do_search_result registry target qs hits
        = .ok (pks.filterMap (fun p => qs.find? (fun o => o.pk.data == p)))
    ∧ do_search_result registry target qs2 hits
        = do_search_result registry target qs hits := by
  have hq2 : (qs2.map (fun o => o.pk.data)).Nodup :=
    ((hperm.map _).nodup_iff).mpr hq
  have e1 : do_search_result registry target qs hits
      = .ok (requeryHost qs pks) := by
    unfold do_search_result
    rw [hok]
  have e2 : do_search_result registry target qs2 hits
      = .ok (requeryHost qs2 pks) := by
    unfold do_search_result
    rw [hok]
  have hfind : ∀ p : List Char,
      qs2.find? (fun o => o.pk.data == p) = qs.find? (fun o => o.pk.data == p) := by
    intro p
    cases hf : qs.find? (fun o => o.pk.data == p) with
    | some o =>
      exact find_pk_of_mem qs2 p o hq2
        (hperm.mem_iff.mpr (List.mem_of_find?_eq_some hf))
        (by simpa using List.find?_some hf)
    | none =>
      rw [List.find?_eq_none] at hf ⊢
      intro x hx
      exact hf x (hperm.mem_iff.mp hx)
  refine ⟨?_, ?_⟩
  · rw [e1, requeryHost_eq_filterMap qs pks hnd hq]
  · rw [e2, e1, requeryHost_eq_filterMap qs2 pks hnd hq2,
      requeryHost_eq_filterMap qs pks hnd hq]
    simp only [hfind]

/-- Witness for C1: three registered types (`app.Base`, its subtype
`app.Sub`, its sibling `app.Sib`), hits `[Sub:1, Sib:2, Sub:3]` against a
`Sub` queryset stored in the reversed default order `[pk 3, pk 1]`: the
reconciled result is `[pk 1, pk 3]` — hit order, sibling excluded — and
permuting the host order does not change it. -/
theorem algolia_c1_witness :
    do_search_result
        [⟨"app", "Base", [0], []⟩, ⟨"app", "Sub", [1, 0], []⟩,
         ⟨"app", "Sib", [2, 0], []⟩] 1
        [⟨1, "3", none, [], []⟩, ⟨1, "1", none, [], []⟩]
        ["app.Sub:1", "app.Sib:2", "app.Sub:3"]
      = .ok [⟨1, "1", none, [], []⟩, ⟨1, "3", none, [], []⟩]
    ∧ do_search_result
        [⟨"app", "Base", [0], []⟩, ⟨"app", "Sub", [1, 0], []⟩,
         ⟨"app", "Sib", [2, 0], []⟩] 1
        [⟨1, "1", none, [], []⟩, ⟨1, "3", none, [], []⟩]
        ["app.Sub:1", "app.Sib:2", "app.Sub:3"]
      = do_search_result
          [⟨"app", "Base", [0], []⟩, ⟨"app", "Sub", [1, 0], []⟩,
           ⟨"app", "Sib", [2, 0], []⟩] 1
          [⟨1, "3", none, [], []⟩, ⟨1, "1", none, [], []⟩]
          ["app.Sub:1", "app.Sib:2", "app.Sub:3"] := by
  have h := algolia_c1_reconciliation_order
    [⟨"app", "Base", [0], []⟩, ⟨"app", "Sub", [1, 0], []⟩,
     ⟨"app", "Sib", [2, 0], []⟩] 1
    [⟨1, "3", none, [], []⟩, ⟨1, "1", none, [], []⟩]
    [⟨1, "1", none, [], []⟩, ⟨1, "3", none, [], []⟩]
    ["app.Sub:1", "app.Sib:2", "app.Sub:3"]
    ["1".data, "3".data]
    rfl (by decide) (by decide)
    (List.Perm.swap (⟨1, "3", none, [], []⟩ : MObj) (⟨1, "1", none, [], []⟩ : MObj) [])
  refine ⟨?_, h.2⟩
  rw [h.1]
  rfl

/-! ## Claim C8 -/

theorem pairwise_flatMap_buckets {α : Type} (key : α → Nat) (xs : List α)
    (ks : List Nat) (hp : List.Pairwise (fun k1 k2 => k2 < k1) ks) :
    List.Pairwise (fun a b => key b ≤ key a)
      (ks.flatMap (fun k => xs.filter (fun x => key x == k))) := by
  induction ks with
  | nil => simp
  | cons k t ih =>
    rw [List.flatMap_cons, List.pairwise_append]
    obtain ⟨hk, ht⟩ := List.pairwise_cons.mp hp
    refine ⟨?_, ih ht, ?_⟩
    · refine List.pairwise_of_forall_mem_list ?_
      intro a ha b hb
      have hka : key a = k := by simpa using (List.mem_filter.mp ha).2
      have hkb : key b = k := by simpa using (List.mem_filter.mp hb).2
      omega
    · intro a ha b hb
      have hka : key a = k := by simpa using (List.mem_filter.mp ha).2
      obtain ⟨k2, hk2t, hbf⟩ := List.mem_flatMap.mp hb
      have hkb : key b = k2 := by simpa using (List.mem_filter.mp hbf).2
      have := hk k2 hk2t
      omega

theorem bucketSortDesc_sorted {α : Type} (bound : Nat) (key : α → Nat)
    (xs : List α) :
    List.Pairwise (fun a b => key b ≤ key a) (bucketSortDesc bound key xs) := by
  unfold bucketSortDesc
  refine pairwise_flatMap_buckets key xs _ ?_
  rw [List.pairwise_reverse]
  exact List.pairwise_lt_range (bound + 1)

theorem bucketSortDesc_subset {α : Type} (bound : Nat) (key : α → Nat)
    (xs : List α) (x : α) (h : x ∈ bucketSortDesc bound key xs) : x ∈ xs := by
  unfold bucketSortDesc at h
  obtain ⟨k, _, hxf⟩ := List.mem_flatMap.mp h
  exact (List.mem_filter.mp hxf).1

theorem bucketSortDesc_mem_of {α : Type} (bound : Nat) (key : α → Nat)
    (xs : List α) (x : α) (hb : key x ≤ bound) (hx : x ∈ xs) :
    x ∈ bucketSortDesc bound key xs := by
  unfold bucketSortDesc
  rw [List.mem_flatMap]
  refine ⟨key x, ?_, List.mem_filter.mpr ⟨hx, by simp⟩⟩
  rw [List.mem_reverse, List.mem_range]
  omega

theorem valuesAnnotateCount_count (rows : List MObj) (fieldName : String)
    (v : SVal) (c : Nat)
    (h : (v, c) ∈ valuesAnnotateCount rows fieldName) :
    c = (rows.map (fun o => colOf o fieldName)).count v := by
  unfold valuesAnnotateCount at h
  have hmem := bucketSortDesc_subset _ _ _ _ h
  obtain ⟨w, _, hwe⟩ := List.mem_map.mp hmem
  obtain ⟨hv, hc⟩ := Prod.mk.injEq .. ▸ hwe
  rw [← hc, hv]

theorem valuesAnnotateCount_keys (rows : List MObj) (fieldName : String)
    (v : SVal) :
    v ∈ rows.map (fun o => colOf o fieldName)
      ↔ ∃ c, (v, c) ∈ valuesAnnotateCount rows fieldName := by
  constructor
  · intro hv
    refine ⟨(rows.map (fun o => colOf o fieldName)).count v, ?_⟩
    unfold valuesAnnotateCount
    refine bucketSortDesc_mem_of _ _ _ _ ?_ ?_
    · have h1 := List.count_le_length v (rows.map (fun o => colOf o fieldName))
      have h2 : (rows.map (fun o => colOf o fieldName)).length = rows.length :=
        List.length_map _ _
      omega
    · exact List.mem_map.mpr ⟨v, List.mem_dedup.mpr hv, rfl⟩
  · rintro ⟨c, hc⟩
    unfold valuesAnnotateCount at hc
    have hmem := bucketSortDesc_subset _ _ _ _ hc
    obtain ⟨w, hw, hwe⟩ := List.mem_map.mp hmem
    obtain ⟨hv, _⟩ := Prod.mk.injEq .. ▸ hwe
    rw [hv] at hw
    exact List.mem_dedup.mp hw

theorem valuesAnnotateCount_sorted (rows : List MObj) (fieldName : String) :
    List.Pairwise (fun a b => b.2 ≤ a.2) (valuesAnnotateCount rows fieldName) := by
  unfold valuesAnnotateCount
  exact bucketSortDesc_sorted _ _ _

theorem get_filterable_field_eq_none_iff (registry : Registry) (tyIdx : Nat)
    (fieldName : String) :
    get_filterable_field registry tyIdx fieldName = none
      ↔ ∀ f ∈ get_filterable_search_fields registry tyIdx,
          f.fieldName ≠ fieldName := by
  unfold get_filterable_field
  rw [List.find?_eq_none]
  constructor
  · intro h f hf
    have := h f (List.mem_reverse.mpr hf)
    simpa using this
  · intro h f hf
    have := h f (List.mem_reverse.mp hf)
    simpa using this

/-- Claim C8. `facet(fieldName)` fails with a `FilterFieldError` naming the
requested field exactly when no FilterField of that name is reachable from
the queryset's type (its own and inherited filterable descriptors); when
the field is declared, `facet` succeeds and returns per-distinct-value
counts over the reconciled rows, ordered by descending count: the counts
are weakly decreasing along the output, each listed count is the number of
reconciled rows with that column value, and the listed values are exactly
the distinct column values of the reconciled rows. -/
theorem algolia_c8_facet (registry : Registry) (target : Nat) (qs : List MObj)
    (hits : List String) (fieldName : String) (rows : List MObj)
    (hok : do_search_result registry target qs hits = .ok rows) :
    ((∃ msg, facet registry target qs hits fieldName
          = .error (.filterFieldError msg fieldName))
        ↔ ∀ f ∈ get_filterable_search_fields registry target,
            f.fieldName ≠ fieldName)
    ∧ (∀ out, facet registry target qs hits fieldName = .ok out →
        List.Pairwise (fun a b => b.2 ≤ a.2) out
        ∧ (∀ v c, (v, c) ∈ out →
            c = (rows.map (fun o => colOf o fieldName)).count v)
        ∧ (∀ v, v ∈ rows.map (fun o => colOf o fieldName)
            ↔ ∃ c, (v, c) ∈ out)) := by
  cases hgf : get_filterable_field registry target fieldName with
  | none =>
    constructor
    · refine iff_of_true ?_ ((get_filterable_field_eq_none_iff _ _ _).mp hgf)
      exact ⟨facetErrorMessage fieldName
        (registry.getD target defMType).objectName, by simp [facet, hgf]⟩
    · intro out hout
      simp [facet, hgf] at hout
  | some f =>
    constructor
    · refine iff_of_false ?_ ?_
      · rintro ⟨msg, hmsg⟩
        rw [facet.eq_def, hgf, hok] at hmsg
        exact Except.noConfusion hmsg
      · intro hall
        rw [(get_filterable_field_eq_none_iff _ _ _).mpr hall] at hgf
        exact Option.noConfusion hgf
    · intro out hout
      rw [facet.eq_def, hgf, hok] at hout
      have hval : valuesAnnotateCount rows fieldName = out := by
        simpa using hout
      subst hval
      exact ⟨valuesAnnotateCount_sorted rows fieldName,
        fun v c hc => valuesAnnotateCount_count rows fieldName v c hc,
        fun v => valuesAnnotateCount_keys rows fieldName v⟩

/-- Witness for C8: a type declaring `is_featured` as FilterField; faceting
two reconciled rows on `is_featured` groups them, and faceting on a never
declared field is exactly the error case of the iff. -/
theorem algolia_c8_witness :
    (∀ f ∈ get_filterable_search_fields
        [⟨"tests", "BlogPage", [0], [.filterF "is_featured" 0]⟩] 0,
      f.fieldName ≠ "missing_field")
    ∧ (∃ msg, facet [⟨"tests", "BlogPage", [0], [.filterF "is_featured" 0]⟩] 0
          [⟨0, "1", none, [], [("is_featured", .sbool true)]⟩,
           ⟨0, "2", none, [], [("is_featured", .sbool false)]⟩]
          ["tests.BlogPage:1", "tests.BlogPage:2"] "missing_field"
        = .error (.filterFieldError msg "missing_field")) := by
  have h := algolia_c8_facet
    [⟨"tests", "BlogPage", [0], [.filterF "is_featured" 0]⟩] 0
    [⟨0, "1", none, [], [("is_featured", .sbool true)]⟩,
     ⟨0, "2", none, [], [("is_featured", .sbool false)]⟩]
    ["tests.BlogPage:1", "tests.BlogPage:2"] "missing_field"
    [⟨0, "1", none, [], [("is_featured", .sbool true)]⟩,
     ⟨0, "2", none, [], [("is_featured", .sbool false)]⟩]
    rfl
  have hdecl : ∀ f ∈ get_filterable_search_fields
      [⟨"tests", "BlogPage", [0], [.filterF "is_featured" 0]⟩] 0,
      f.fieldName ≠ "missing_field" := by decide
  exact ⟨hdecl, h.1.mpr hdecl⟩
